import Mathlib

/-!
Verification of the name-sanitization core of the Azure storage backend
(`storages/backends/azure_storage.py`).

The Python code is shallowly embedded over `List Char` / `String`:
  * `_get_valid_filename`  → `getValidFilenameL` / `getValidFilename`
  * `AzureStorage.get_valid_name` → `getValidName`
  * `AzureStorage.get_available_name` → `getAvailableName`
  * `AzureStorage.delete` → `deleteBlob`
  * `AzureStorage.listdir` / `list_all` → `listdir`
-/

set_option maxRecDepth 10000

instance {α β : Type} [DecidableEq α] [DecidableEq β] : DecidableEq (Except α β)
  | .ok a, .ok b => decidable_of_iff (a = b) (by simp)
  | .ok _, .error _ => isFalse (by simp)
  | .error _, .ok _ => isFalse (by simp)
  | .error a, .error b => decidable_of_iff (a = b) (by simp)

namespace AzureStorage

/-- Python word character for the regex class `\w` with the re.UNICODE
flag, restricted to the ASCII fragment the repository exercises:
letters, digits and the underscore. -/
def isWordChar (c : Char) : Bool := c.isAlphanum || c = '_'

/-- A character kept by `re.sub(r'(?u)[^-_\w./]', '', s)`:
hyphen, underscore, word character, dot or forward slash. -/
def isAllowed (c : Char) : Bool :=
  c = '-' || c = '_' || c = '.' || c = '/' || isWordChar c

/-- `s.replace('\\', '/')` for a single character. -/
def replBackslash (c : Char) : Char := if c = '\\' then '/' else c

/-- `s.replace(' ', '_')` for a single character. -/
def replSpace (c : Char) : Char := if c = ' ' then '_' else c

/-- Python `path.split('/')`: split on every slash, keeping empty pieces. -/
def splitSlash : List Char → List (List Char)
  | [] => [[]]
  | c :: cs =>
    if c = '/' then [] :: splitSlash cs
    else
      match splitSlash cs with
      | [] => [[c]]
      | g :: gs => (c :: g) :: gs

/-- Python `'/'.join(comps)`. -/
def joinSlash : List (List Char) → List Char
  | [] => []
  | g :: gs =>
    match gs with
    | [] => g
    | _ :: _ => g ++ '/' :: joinSlash gs

/-- Number of initial slashes `posixpath.normpath` preserves:
one for `/p` and `///p`, two for exactly `//p`, zero otherwise. -/
def initSlashes (l : List Char) : Nat :=
  if l.take 3 = ['/', '/', '/'] then 1
  else if l.take 2 = ['/', '/'] then 2
  else if l.take 1 = ['/'] then 1
  else 0

/-- One step of the component loop in `posixpath.normpath`.  The
accumulator holds the kept components in reverse order. -/
def normStep (hasInit : Bool) (acc : List (List Char)) (comp : List Char) :
    List (List Char) :=
  if comp = [] ∨ comp = ['.'] then acc
  else if comp ≠ ['.', '.'] ∨ (!hasInit ∧ acc = []) ∨ acc.head? = some ['.', '.'] then
    comp :: acc
  else acc.tail

/-- CPython `posixpath.normpath` on a character list. -/
def pyNormpathL (l : List Char) : List Char :=
  if l = [] then ['.']
  else
    let k := initSlashes l
    let newComps := ((splitSlash l).foldl (normStep (decide (k ≠ 0))) []).reverse
    let p := List.replicate k '/' ++ joinSlash newComps
    if p = [] then ['.'] else p

/-- A character removed by `s.strip(' ./')`. -/
def isStripChar (c : Char) : Bool := c = ' ' || c = '.' || c = '/'

/-- Python `s.strip(' ./')`: drop the stripped characters from both ends. -/
def stripL (l : List Char) : List Char :=
  (((l.dropWhile isStripChar).reverse).dropWhile isStripChar).reverse

/-- Helper for reasoning about `stripL` on joined components: drop the
leading dots of the first component, discarding components that consist
of dots only. -/
def leftTrim : List (List Char) → List (List Char)
  | [] => []
  | g :: gs =>
    if g.dropWhile (fun c => c = '.') = [] then leftTrim gs
    else g.dropWhile (fun c => c = '.') :: gs

/-- A path component that `posixpath.normpath` treats as ordinary:
non-empty and neither `.` nor `..`. -/
def goodComp (g : List Char) : Prop :=
  g ≠ [] ∧ g ≠ ['.'] ∧ g ≠ ['.', '.']

/-- Invariant of the `normStep` accumulator: the `..` components form a
suffix (the components kept earliest), every other component ordinary. -/
def AccInv (acc : List (List Char)) : Prop :=
  ∃ front j, acc = front ++ List.replicate j ['.', '.'] ∧
    ∀ g ∈ front, goodComp g

/-- `_get_valid_filename` from `azure_storage.py` on a character list:
replace backslashes with slashes and spaces with underscores, delete the
characters the regex removes, run `os.path.normpath`, strip `' ./'`. -/
def getValidFilenameL (l : List Char) : List Char :=
  stripL (pyNormpathL (((l.map replBackslash).map replSpace).filter isAllowed))

/-- `_get_valid_filename` on strings. -/
def getValidFilename (s : String) : String := ⟨getValidFilenameL s.data⟩

/-- `_AZURE_NAME_MAX_LEN` from `azure_storage.py`. -/
def AZURE_NAME_MAX_LEN : Nat := 1024

/-- `AzureStorage.get_valid_name`: sanitize, then reject over-long and
empty results with `ValueError`, modelled as `Except.error`. -/
def getValidName (name : String) : Except String String :=
  let n := getValidFilename name
  if n.length > AZURE_NAME_MAX_LEN then
    .error "Blob name max len is 1024"
  else if n.length = 0 then
    .error "A file name of one or moreprintable characters is required"
  else .ok n

/-- CPython `os.path.splitext` on a character list: split off the
extension at the last dot of the last component, unless the component
consists only of leading dots up to that point. -/
def splitExtL (l : List Char) : List Char × List Char :=
  let r := l.reverse
  let e := r.takeWhile (fun c => ¬ (c = '.' ∨ c = '/'))
  match r.drop e.length with
  | '.' :: stemRev =>
    if (stemRev.takeWhile (fun c => c ≠ '/')).all (fun c => c = '.') then (l, [])
    else (stemRev.reverse, '.' :: e.reverse)
  | _ => (l, [])

/-- Modelled from the spec: candidate generation of the available-name
resolver (Django `Storage.get_available_name`, not part of this
repository).  The candidate is `{stem}_{token}{ext}`; when it would
exceed `maxLength` the stem is truncated to make room, preserving the
extension. -/
def makeCandidate (stem ext tok : List Char) (maxLength : Nat) : List Char :=
  let cand := stem ++ '_' :: tok ++ ext
  if cand.length ≤ maxLength then cand
  else stem.take (maxLength - (1 + tok.length + ext.length)) ++ '_' :: tok ++ ext

/-- Modelled from the spec: the probe-and-retry loop of the resolver.
Each iteration consumes one answer of the existence oracle; a candidate
is accepted when the oracle answers false and the candidate respects
`maxLength`; otherwise the next token builds a new candidate, which is
re-normalized (errors propagate).  `calls` counts oracle calls so far. -/
def availLoop (stem ext : List Char) (tokens : List String) (maxLength : Nat)
    (name : String) (calls : Nat) : List Bool → Except String (String × Nat)
  | [] => .error "existence oracle exhausted"
  | ans :: rest =>
    if ans = false ∧ name.length ≤ maxLength then .ok (name, calls + 1)
    else
      match tokens with
      | [] => .error "token generator exhausted"
      | tok :: toks =>
        match getValidName ⟨makeCandidate stem ext tok.data maxLength⟩ with
        | .error e => .error e
        | .ok next => availLoop stem ext toks maxLength next (calls + 1) rest

/-- Modelled from the spec: Django `Storage.get_available_name`, the
`super()` call in `AzureStorage.get_available_name`, whose source is not
part of this repository.  The stem and extension are taken from the
normalized name; the result carries the number of oracle calls. -/
def superGetAvailableName (ex : List Bool) (tokens : List String)
    (maxLength : Nat) (name : String) : Except String (String × Nat) :=
  let p := splitExtL name.data
  availLoop p.1 p.2 tokens maxLength name 0 ex

/-- `AzureStorage.get_available_name`: normalize first (errors
propagate before any oracle call), then run the inherited resolver. -/
def getAvailableName (ex : List Bool) (tokens : List String)
    (maxLength : Nat) (name : String) : Except String (String × Nat) :=
  match getValidName name with
  | .error e => .error e
  | .ok n => superGetAvailableName ex tokens maxLength n

/-- `AzureStorage.save`: under overwrite the normalized name is used
directly with no oracle call; otherwise the resolver runs with the
default maximum length.  The result is the blob name passed to
`create_blob_from_stream` together with the number of oracle calls. -/
def saveName (overwriteFiles : Bool) (ex : List Bool) (tokens : List String)
    (name : String) : Except String (String × Nat) :=
  if overwriteFiles then
    match getValidName name with
    | .error e => .error e
    | .ok n => .ok (n, 0)
  else getAvailableName ex tokens AZURE_NAME_MAX_LEN name

/-- Errors of the backend SDK: `AzureMissingResourceHttpError` or any
other failure. -/
inductive AzureError
  | missingResource
  | other (msg : String)
deriving DecidableEq

/-- `AzureStorage.delete`: forward to the backend delete and swallow
only the missing-resource error. -/
def deleteBlob (backendDelete : String → Except AzureError Unit)
    (name : String) : Except AzureError Unit :=
  match backendDelete name with
  | .error .missingResource => .ok ()
  | r => r

/-- Python `path.endswith('/')`. -/
def endsWithSlash (s : String) : Bool := s.data.getLast? = some '/'

/-- The path adjustment in `AzureStorage.listdir`: append a trailing
slash to a non-empty path that lacks one. -/
def prefixedPath (path : String) : String :=
  if path ≠ "" ∧ ¬ endsWithSlash path then path ++ "/" else path

/-- Python `'/' in n`. -/
def containsSlash (s : String) : Bool := s.data.any (fun c => c = '/')

/-- Python `n.split('/', 1)[0]`. -/
def firstSegment (s : String) : String := ⟨s.data.takeWhile (fun c => c ≠ '/')⟩

/-- Python `name[len(path):]`. -/
def remainderAfter (p name : String) : String := ⟨name.data.drop p.length⟩

/-- The loop body of `AzureStorage.listdir`: a remainder with a slash
adds its first segment to the directory set, otherwise the remainder is
appended to the file list. -/
def listdirStep (p : String) (acc : List String × List String)
    (name : String) : List String × List String :=
  let n := remainderAfter p name
  if containsSlash n then
    (if firstSegment n ∈ acc.1 then acc.1 else acc.1 ++ [firstSegment n], acc.2)
  else (acc.1, acc.2 ++ [n])

/-- `AzureStorage.listdir` over a backend listing capability `blobs`
(`list_all`, i.e. `list_blobs` of the SDK restricted to a prefix):
partition the listed names into directories and files. -/
def listdir (blobs : String → List String) (path : String) :
    List String × List String :=
  let p := prefixedPath path
  (blobs p).foldl (listdirStep p) ([], [])

/-! ### Basic facts about `splitSlash` and `joinSlash` -/

theorem splitSlash_ne_nil (l : List Char) : splitSlash l ≠ [] := by
  cases l with
  | nil => simp [splitSlash]
  | cons c cs =>
    unfold splitSlash
    by_cases h : c = '/'
    · simp [h]
    · simp only [h, if_false]
      cases hs : splitSlash cs <;> simp

theorem splitSlash_cons_slash (cs : List Char) :
    splitSlash ('/' :: cs) = [] :: splitSlash cs := by
  simp [splitSlash]

theorem splitSlash_cons_ne {c : Char} (cs : List Char) (hc : c ≠ '/')
    {g : List Char} {gs : List (List Char)} (hs : splitSlash cs = g :: gs) :
    splitSlash (c :: cs) = (c :: g) :: gs := by
  unfold splitSlash
  rw [hs]
  simp [hc]

theorem joinSlash_nil : joinSlash [] = [] := rfl

theorem joinSlash_single (g : List Char) : joinSlash [g] = g := rfl

theorem joinSlash_cons_cons (a b : List Char) (gs : List (List Char)) :
    joinSlash (a :: b :: gs) = a ++ '/' :: joinSlash (b :: gs) := rfl

theorem joinSlash_splitSlash (l : List Char) : joinSlash (splitSlash l) = l := by
  induction l with
  | nil => rfl
  | cons c cs ih =>
    by_cases h : c = '/'
    · subst h
      rw [splitSlash_cons_slash]
      cases hs : splitSlash cs with
      | nil => exact absurd hs (splitSlash_ne_nil cs)
      | cons g gs =>
        rw [hs] at ih
        rw [joinSlash_cons_cons]
        simpa using ih
    · cases hs : splitSlash cs with
      | nil => exact absurd hs (splitSlash_ne_nil cs)
      | cons g gs =>
        rw [splitSlash_cons_ne cs h hs]
        rw [hs] at ih
        cases gs with
        | nil =>
          rw [joinSlash_single]
          rw [joinSlash_single] at ih
          rw [ih]
        | cons g2 gs2 =>
          rw [joinSlash_cons_cons]
          rw [joinSlash_cons_cons] at ih
          rw [List.cons_append, ih]

theorem no_slash_of_mem_splitSlash {l g : List Char}
    (h : g ∈ splitSlash l) : '/' ∉ g := by
  induction l generalizing g with
  | nil =>
    simp [splitSlash] at h
    subst h; simp
  | cons c cs ih =>
    by_cases hc : c = '/'
    · subst hc
      rw [splitSlash_cons_slash] at h
      rcases List.mem_cons.mp h with h1 | h1
      · subst h1; simp
      · exact ih h1
    · cases hs : splitSlash cs with
      | nil => exact absurd hs (splitSlash_ne_nil cs)
      | cons g0 gs0 =>
        have hg0 : g0 ∈ splitSlash cs := by
          rw [hs]; exact List.mem_cons_self g0 gs0
        rw [splitSlash_cons_ne cs hc hs] at h
        rcases List.mem_cons.mp h with h1 | h1
        · subst h1
          intro hmem
          rcases List.mem_cons.mp hmem with h2 | h2
          · exact hc h2.symm
          · exact ih hg0 h2
        · exact ih (by rw [hs]; exact List.mem_cons_of_mem g0 h1)

theorem mem_of_mem_splitSlash {l g : List Char} {c : Char}
    (hg : g ∈ splitSlash l) (hc : c ∈ g) : c ∈ l := by
  induction l generalizing g with
  | nil =>
    simp [splitSlash] at hg
    subst hg; simp at hc
  | cons a cs ih =>
    by_cases ha : a = '/'
    · subst ha
      rw [splitSlash_cons_slash] at hg
      rcases List.mem_cons.mp hg with h | h
      · subst h; simp at hc
      · exact List.mem_cons_of_mem _ (ih h hc)
    · cases hs : splitSlash cs with
      | nil => exact absurd hs (splitSlash_ne_nil cs)
      | cons g0 gs0 =>
        have hg0 : g0 ∈ splitSlash cs := by
          rw [hs]; exact List.mem_cons_self g0 gs0
        rw [splitSlash_cons_ne cs ha hs] at hg
        rcases List.mem_cons.mp hg with h | h
        · subst h
          rcases List.mem_cons.mp hc with h1 | h1
          · exact h1 ▸ List.mem_cons_self a cs
          · exact List.mem_cons_of_mem a (ih hg0 h1)
        · exact List.mem_cons_of_mem a
            (ih (by rw [hs]; exact List.mem_cons_of_mem g0 h) hc)

theorem splitSlash_of_no_slash {l : List Char} (h : '/' ∉ l) :
    splitSlash l = [l] := by
  induction l with
  | nil => rfl
  | cons c cs ih =>
    have hc : c ≠ '/' := fun hh => h (hh ▸ List.mem_cons_self c cs)
    have hs := ih (fun hm => h (List.mem_cons_of_mem c hm))
    exact splitSlash_cons_ne cs hc hs

theorem splitSlash_append_slash {a : List Char} (r : List Char)
    (h : '/' ∉ a) : splitSlash (a ++ '/' :: r) = a :: splitSlash r := by
  induction a with
  | nil => simpa using splitSlash_cons_slash r
  | cons c a' ih =>
    have hc : c ≠ '/' := fun hh => h (hh ▸ List.mem_cons_self c a')
    have h' : '/' ∉ a' := fun hm => h (List.mem_cons_of_mem c hm)
    rw [List.cons_append]
    exact splitSlash_cons_ne _ hc (ih h')

theorem splitSlash_joinSlash {gs : List (List Char)} (h0 : gs ≠ [])
    (h : ∀ g ∈ gs, '/' ∉ g) : splitSlash (joinSlash gs) = gs := by
  induction gs with
  | nil => exact absurd rfl h0
  | cons g gs' ih =>
    cases gs' with
    | nil => exact splitSlash_of_no_slash (h g (List.mem_cons_self g []))
    | cons g2 gs2 =>
      rw [joinSlash_cons_cons,
        splitSlash_append_slash _ (h g (List.mem_cons_self g _)),
        ih (by simp) (fun x hx => h x (List.mem_cons_of_mem g hx))]

theorem joinSlash_append {a b : List (List Char)} (ha : a ≠ []) (hb : b ≠ []) :
    joinSlash (a ++ b) = joinSlash a ++ '/' :: joinSlash b := by
  induction a with
  | nil => exact absurd rfl ha
  | cons x a' ih =>
    cases a' with
    | nil =>
      cases b with
      | nil => exact absurd rfl hb
      | cons y bs => simp [joinSlash_cons_cons, joinSlash_single]
    | cons x2 a2 =>
      have ih' := ih (by simp)
      rw [List.cons_append] at ih'
      rw [List.cons_append, List.cons_append, joinSlash_cons_cons,
        joinSlash_cons_cons, ih']
      simp

theorem mem_joinSlash {gs : List (List Char)} {c : Char}
    (h : c ∈ joinSlash gs) : c = '/' ∨ ∃ g ∈ gs, c ∈ g := by
  induction gs with
  | nil => simp [joinSlash] at h
  | cons g gs' ih =>
    cases gs' with
    | nil =>
      rw [joinSlash_single] at h
      exact Or.inr ⟨g, List.mem_cons_self g [], h⟩
    | cons g2 gs2 =>
      rw [joinSlash_cons_cons] at h
      rcases List.mem_append.mp h with h1 | h1
      · exact Or.inr ⟨g, List.mem_cons_self g _, h1⟩
      · rcases List.mem_cons.mp h1 with h2 | h2
        · exact Or.inl h2
        · rcases ih h2 with h3 | ⟨g', hg', hc'⟩
          · exact Or.inl h3
          · exact Or.inr ⟨g', List.mem_cons_of_mem g hg', hc'⟩

theorem reverse_joinSlash (gs : List (List Char)) :
    (joinSlash gs).reverse = joinSlash ((gs.map List.reverse).reverse) := by
  induction gs with
  | nil => rfl
  | cons g gs' ih =>
    cases gs' with
    | nil => simp [joinSlash_single]
    | cons g2 gs2 =>
      rw [joinSlash_cons_cons]
      have hM : ((g2 :: gs2).map List.reverse).reverse ≠ [] := by simp
      calc (g ++ '/' :: joinSlash (g2 :: gs2)).reverse
          = (joinSlash (g2 :: gs2)).reverse ++ '/' :: g.reverse := by simp
        _ = joinSlash (((g2 :: gs2).map List.reverse).reverse) ++
              '/' :: joinSlash [g.reverse] := by rw [ih, joinSlash_single]
        _ = joinSlash ((((g2 :: gs2).map List.reverse).reverse) ++ [g.reverse]) := by
              rw [joinSlash_append hM (by simp)]
        _ = joinSlash (((g :: g2 :: gs2).map List.reverse).reverse) := by simp

/-! ### The component loop and fixpoints of `pyNormpathL` -/

theorem normStep_good {b : Bool} (acc : List (List Char)) {comp : List Char}
    (h : goodComp comp) : normStep b acc comp = comp :: acc := by
  obtain ⟨h1, h2, h3⟩ := h
  unfold normStep
  rw [if_neg (by simp [h1, h2]), if_pos (Or.inl h3)]

theorem foldl_normStep_good {b : Bool} {comps : List (List Char)}
    (h : ∀ g ∈ comps, goodComp g) (acc : List (List Char)) :
    comps.foldl (normStep b) acc = comps.reverse ++ acc := by
  induction comps generalizing acc with
  | nil => simp
  | cons g gs ih =>
    rw [List.foldl_cons, normStep_good acc (h g (List.mem_cons_self g gs)),
      ih (fun x hx => h x (List.mem_cons_of_mem g hx))]
    simp

theorem mem_foldl_normStep {b : Bool} {comps acc : List (List Char)}
    {g : List Char} (h : g ∈ comps.foldl (normStep b) acc) :
    g ∈ acc ∨ g ∈ comps ∨ g = ['.', '.'] := by
  induction comps generalizing acc with
  | nil => simpa using Or.inl h
  | cons c cs ih =>
    rw [List.foldl_cons] at h
    rcases ih h with h1 | h1 | h1
    · unfold normStep at h1
      split at h1
      · exact Or.inl h1
      · split at h1
        · rcases List.mem_cons.mp h1 with h2 | h2
          · exact Or.inr (Or.inl (h2 ▸ List.mem_cons_self c cs))
          · exact Or.inl h2
        · exact Or.inl (List.mem_of_mem_tail h1)
    · exact Or.inr (Or.inl (List.mem_cons_of_mem c h1))
    · exact Or.inr (Or.inr h1)

theorem normStep_accInv (b : Bool) (comp : List Char) {acc : List (List Char)}
    (h : AccInv acc) : AccInv (normStep b acc comp) := by
  obtain ⟨front, j, hacc, hfront⟩ := h
  unfold normStep
  by_cases h1 : comp = [] ∨ comp = ['.']
  · rw [if_pos h1]; exact ⟨front, j, hacc, hfront⟩
  · rw [if_neg h1]
    by_cases h2 : comp ≠ ['.', '.'] ∨ ((!b : Bool) ∧ acc = []) ∨
        acc.head? = some ['.', '.']
    · rw [if_pos h2]
      by_cases hdots : comp = ['.', '.']
      · subst hdots
        rcases h2 with h3 | ⟨_, h3⟩ | h3
        · exact absurd rfl h3
        · exact ⟨[], 1, by rw [h3]; rfl, by simp⟩
        · have hfr : front = [] := by
            cases front with
            | nil => rfl
            | cons g f' =>
              rw [hacc, List.cons_append] at h3
              simp only [List.head?_cons, Option.some.injEq] at h3
              exact absurd h3 ((hfront g (List.mem_cons_self g f')).2.2)
          refine ⟨[], j + 1, ?_, by simp⟩
          rw [hacc, hfr, List.nil_append, List.nil_append,
            List.replicate_succ]
      · refine ⟨comp :: front, j, by rw [hacc]; rfl, ?_⟩
        intro g hg
        rcases List.mem_cons.mp hg with h4 | h4
        · subst h4
          push_neg at h1
          exact ⟨h1.1, h1.2, hdots⟩
        · exact hfront g h4
    · rw [if_neg h2]
      cases front with
      | nil =>
        cases j with
        | zero => exact ⟨[], 0, by rw [hacc]; rfl, by simp⟩
        | succ j' =>
          refine ⟨[], j', ?_, by simp⟩
          rw [hacc, List.nil_append, List.nil_append, List.replicate_succ]
          rfl
      | cons g f' =>
        exact ⟨f', j, by rw [hacc]; rfl,
          fun x hx => hfront x (List.mem_cons_of_mem g hx)⟩

theorem foldl_normStep_accInv (b : Bool) (comps : List (List Char))
    {acc : List (List Char)} (h : AccInv acc) :
    AccInv (comps.foldl (normStep b) acc) := by
  induction comps generalizing acc with
  | nil => exact h
  | cons c cs ih => exact ih (normStep_accInv b c h)

theorem initSlashes_eq_zero {l : List Char} (h : l.head? ≠ some '/') :
    initSlashes l = 0 := by
  cases l with
  | nil => rfl
  | cons c cs =>
    have hc : ¬ c = '/' := by
      intro hh; exact h (by rw [hh]; rfl)
    simp [initSlashes, List.take_succ_cons, hc]

theorem pyNormpathL_fix {l : List Char} (hne : l ≠ [])
    (h : ∀ g ∈ splitSlash l, goodComp g) : pyNormpathL l = l := by
  have h0 : initSlashes l = 0 := by
    apply initSlashes_eq_zero
    intro hh
    cases l with
    | nil => exact hne rfl
    | cons c cs =>
      simp only [List.head?_cons, Option.some.injEq] at hh
      subst hh
      have hmem : ([] : List Char) ∈ splitSlash ('/' :: cs) := by
        rw [splitSlash_cons_slash]; exact List.mem_cons_self _ _
      exact (h [] hmem).1 rfl
  simp only [pyNormpathL, if_neg hne, h0]
  rw [foldl_normStep_good h]
  simp only [List.append_nil, List.reverse_reverse, List.replicate_zero,
    List.nil_append]
  rw [joinSlash_splitSlash]
  exact if_neg hne

/-! ### Facts about `stripL` -/

theorem dropWhile_append_of_forall {p : Char → Bool} {a : List Char}
    (h : ∀ c ∈ a, p c = true) (l : List Char) :
    (a ++ l).dropWhile p = l.dropWhile p := by
  induction a with
  | nil => rfl
  | cons c a' ih =>
    rw [List.cons_append, List.dropWhile_cons,
      if_pos (h c (List.mem_cons_self c a'))]
    exact ih (fun x hx => h x (List.mem_cons_of_mem c hx))

theorem dropWhile_append_of_ne {p : Char → Bool} {a : List Char}
    (h : a.dropWhile p ≠ []) (l : List Char) :
    (a ++ l).dropWhile p = a.dropWhile p ++ l := by
  induction a with
  | nil => simp at h
  | cons c a' ih =>
    by_cases hc : p c = true
    · rw [List.dropWhile_cons, if_pos hc] at h
      rw [List.cons_append, List.dropWhile_cons, if_pos hc,
        List.dropWhile_cons, if_pos hc]
      exact ih h
    · rw [List.cons_append, List.dropWhile_cons, if_neg hc,
        List.dropWhile_cons, if_neg hc]
      rfl

theorem dropWhile_head_false {p : Char → Bool} {l : List Char} {c : Char}
    {cs : List Char} (h : l.dropWhile p = c :: cs) : p c = false := by
  induction l with
  | nil => simp at h
  | cons a l' ih =>
    rw [List.dropWhile_cons] at h
    by_cases ha : p a = true
    · rw [if_pos ha] at h; exact ih h
    · rw [if_neg ha] at h
      injection h with h1 _
      subst h1
      simpa using ha

theorem dropWhile_eq_self_of_head {p : Char → Bool} {l : List Char}
    (h : ∀ c cs, l = c :: cs → p c = false) : l.dropWhile p = l := by
  cases l with
  | nil => rfl
  | cons c cs => rw [List.dropWhile_cons, if_neg (by simp [h c cs rfl])]

theorem stripL_idem (l : List Char) : stripL (stripL l) = stripL l := by
  unfold stripL
  cases hB : (l.dropWhile isStripChar).reverse.dropWhile isStripChar with
  | nil => simp [hB]
  | cons b bs =>
    obtain ⟨a, as, hA⟩ : ∃ a as, l.dropWhile isStripChar = a :: as := by
      cases h0 : l.dropWhile isStripChar with
      | nil => rw [h0] at hB; simp at hB
      | cons a as => exact ⟨a, as, rfl⟩
    have hpa : isStripChar a = false := dropWhile_head_false hA
    have hlast : (b :: bs).getLast? = some a := by
      obtain ⟨t, ht⟩ : (b :: bs) <:+ (l.dropWhile isStripChar).reverse := by
        rw [← hB]; exact List.dropWhile_suffix _
      have h2 : ((l.dropWhile isStripChar).reverse).getLast? = some a := by
        rw [List.getLast?_reverse, hA]; rfl
      rw [← ht, List.getLast?_append] at h2
      simpa using h2
    have h1 : ((b :: bs).reverse).dropWhile isStripChar = (b :: bs).reverse := by
      apply dropWhile_eq_self_of_head
      intro c cs hc
      have : ((b :: bs).reverse).head? = some c := by rw [hc]; rfl
      rw [List.head?_reverse, hlast] at this
      injection this with h3
      exact h3 ▸ hpa
    have h2 : (b :: bs).dropWhile isStripChar = b :: bs := by
      apply dropWhile_eq_self_of_head
      intro c cs hc
      injection hc with h3 _
      exact h3 ▸ dropWhile_head_false hB
    rw [h1, List.reverse_reverse, h2]

theorem mem_stripL {l : List Char} {c : Char} (h : c ∈ stripL l) : c ∈ l := by
  unfold stripL at h
  rw [List.mem_reverse] at h
  have h1 := (List.dropWhile_suffix isStripChar).subset h
  rw [List.mem_reverse] at h1
  exact (List.dropWhile_suffix isStripChar).subset h1

/-! ### Trimming joined components from both ends -/

theorem dropWhile_congr_mem {p q : Char → Bool} {l : List Char}
    (h : ∀ c ∈ l, p c = q c) : l.dropWhile p = l.dropWhile q := by
  induction l with
  | nil => rfl
  | cons c cs ih =>
    rw [List.dropWhile_cons, List.dropWhile_cons, h c (List.mem_cons_self c cs)]
    split
    · exact ih (fun x hx => h x (List.mem_cons_of_mem c hx))
    · rfl

theorem isStripChar_eq_dot {c : Char} (h1 : c ≠ '/') (h2 : c ≠ ' ') :
    isStripChar c = decide (c = '.') := by
  simp [isStripChar, h1, h2]

theorem leftTrim_cons (g : List Char) (gs : List (List Char)) :
    leftTrim (g :: gs) =
      if g.dropWhile (fun c => c = '.') = [] then leftTrim gs
      else g.dropWhile (fun c => c = '.') :: gs := rfl

theorem dropWhile_strip_joinSlash {gs : List (List Char)}
    (h : ∀ g ∈ gs, ∀ c ∈ g, c ≠ '/' ∧ c ≠ ' ') :
    (joinSlash gs).dropWhile isStripChar = joinSlash (leftTrim gs) := by
  induction gs with
  | nil => rfl
  | cons g gs' ih =>
    have hg := h g (List.mem_cons_self g gs')
    have hsame : g.dropWhile isStripChar = g.dropWhile (fun c => c = '.') :=
      dropWhile_congr_mem (fun c hc => isStripChar_eq_dot (hg c hc).1 (hg c hc).2)
    have ih' := ih (fun x hx c hc => h x (List.mem_cons_of_mem g hx) c hc)
    rw [leftTrim_cons]
    cases gs' with
    | nil =>
      rw [joinSlash_single]
      by_cases hg' : g.dropWhile (fun c => c = '.') = []
      · rw [if_pos hg']
        rw [hsame, hg']
        rfl
      · rw [if_neg hg', joinSlash_single, hsame]
    | cons g2 gs2 =>
      rw [joinSlash_cons_cons]
      by_cases hg' : g.dropWhile (fun c => c = '.') = []
      · rw [if_pos hg']
        have hall : ∀ c ∈ g, isStripChar c = true := by
          intro c hc
          have : decide (c = '.') = true := by
            have := List.dropWhile_eq_nil_iff.mp hg' c hc
            simpa using this
          rw [isStripChar_eq_dot (hg c hc).1 (hg c hc).2]
          exact this
        rw [dropWhile_append_of_forall hall, List.dropWhile_cons,
          if_pos (by rfl : isStripChar '/' = true)]
        exact ih'
      · have hne : g.dropWhile isStripChar ≠ [] := by rw [hsame]; exact hg'
        rw [if_neg hg', dropWhile_append_of_ne hne, hsame, joinSlash_cons_cons]

theorem leftTrim_struct (gs : List (List Char)) :
    leftTrim gs = [] ∨ ∃ h rest, leftTrim gs = h :: rest ∧ h ≠ [] ∧
      h.head? ≠ some '.' ∧ (∃ g ∈ gs, ∀ c ∈ h, c ∈ g) ∧ ∀ x ∈ rest, x ∈ gs := by
  induction gs with
  | nil => exact Or.inl rfl
  | cons g gs' ih =>
    rw [leftTrim_cons]
    by_cases hg' : g.dropWhile (fun c => c = '.') = []
    · rw [if_pos hg']
      rcases ih with h1 | ⟨hh, rest, e, n1, n2, ⟨g0, hg0, hsub⟩, hrest⟩
      · exact Or.inl h1
      · exact Or.inr ⟨hh, rest, e, n1, n2,
          ⟨g0, List.mem_cons_of_mem g hg0, hsub⟩,
          fun x hx => List.mem_cons_of_mem g (hrest x hx)⟩
    · rw [if_neg hg']
      refine Or.inr ⟨_, gs', rfl, hg', ?_,
        ⟨g, List.mem_cons_self g gs',
          fun c hc => (List.dropWhile_suffix _).subset hc⟩,
        fun x hx => List.mem_cons_of_mem g hx⟩
      intro hh
      cases hd : g.dropWhile (fun c => c = '.') with
      | nil => exact hg' hd
      | cons c cs =>
        rw [hd] at hh
        simp only [List.head?_cons, Option.some.injEq] at hh
        have hc := dropWhile_head_false hd
        rw [hh] at hc
        simp at hc

theorem stripL_joinSlash_struct {rf : List (List Char)}
    (hclean : ∀ g ∈ rf, ∀ c ∈ g, c ≠ '/' ∧ c ≠ ' ')
    (hgood : ∀ g ∈ rf, goodComp g) :
    stripL (joinSlash rf) = [] ∨
      ∃ gsF, gsF ≠ [] ∧ stripL (joinSlash rf) = joinSlash gsF ∧
        (∀ g ∈ gsF, goodComp g) ∧ (∀ g ∈ gsF, '/' ∉ g) := by
  unfold stripL
  rw [dropWhile_strip_joinSlash hclean]
  rcases leftTrim_struct rf with h1 |
    ⟨h1, rest1, e1, hne1, hhd1, ⟨g1, hg1, hsub1⟩, hrest1⟩
  · rw [h1, joinSlash_nil]
    exact Or.inl (by simp)
  · rw [e1]
    have hcl1 : ∀ g ∈ h1 :: rest1, ∀ c ∈ g, c ≠ '/' ∧ c ≠ ' ' := by
      intro g hg c hc
      rcases List.mem_cons.mp hg with h2 | h2
      · subst h2; exact hclean g1 hg1 c (hsub1 c hc)
      · exact hclean g (hrest1 g h2) c hc
    have hgoodh1 : goodComp h1 :=
      ⟨hne1, fun hh => hhd1 (by rw [hh]; rfl), fun hh => hhd1 (by rw [hh]; rfl)⟩
    rw [reverse_joinSlash]
    have hclX : ∀ g ∈ ((h1 :: rest1).map List.reverse).reverse,
        ∀ c ∈ g, c ≠ '/' ∧ c ≠ ' ' := by
      intro g hg c hc
      rw [List.mem_reverse, List.mem_map] at hg
      obtain ⟨y, hy, rfl⟩ := hg
      exact hcl1 y hy c (List.mem_reverse.mp hc)
    have hXmem : ∀ x ∈ ((h1 :: rest1).map List.reverse).reverse,
        x.reverse ∈ h1 :: rest1 := by
      intro x hx
      rw [List.mem_reverse, List.mem_map] at hx
      obtain ⟨y, hy, rfl⟩ := hx
      simpa using hy
    rw [dropWhile_strip_joinSlash hclX]
    rcases leftTrim_struct (((h1 :: rest1).map List.reverse).reverse) with h2 |
      ⟨h2, rest2, e2, hne2, hhd2, ⟨g2, hg2, hsub2⟩, hrest2⟩
    · rw [h2, joinSlash_nil, List.reverse_nil]
      exact Or.inl rfl
    · rw [e2, reverse_joinSlash]
      have hgood1 : ∀ g ∈ h1 :: rest1, goodComp g := by
        intro g hg
        rcases List.mem_cons.mp hg with h3 | h3
        · exact h3 ▸ hgoodh1
        · exact hgood g (hrest1 g h3)
      refine Or.inr ⟨((h2 :: rest2).map List.reverse).reverse, by simp, rfl,
        ?_, ?_⟩
      · intro g hg
        rw [List.mem_reverse, List.mem_map] at hg
        obtain ⟨y, hy, rfl⟩ := hg
        rcases List.mem_cons.mp hy with h3 | h3
        · subst h3
          refine ⟨by simp [hne2], ?_, ?_⟩
          · intro hh
            have : y = ['.'] := by rw [← List.reverse_reverse y, hh]; rfl
            exact hhd2 (by rw [this]; rfl)
          · intro hh
            have : y = ['.', '.'] := by rw [← List.reverse_reverse y, hh]; rfl
            exact hhd2 (by rw [this]; rfl)
        · exact hgood1 y.reverse (hXmem y (hrest2 y h3))
      · intro g hg hsl
        rw [List.mem_reverse, List.mem_map] at hg
        obtain ⟨y, hy, rfl⟩ := hg
        rw [List.mem_reverse] at hsl
        rcases List.mem_cons.mp hy with h3 | h3
        · subst h3
          exact (hclX g2 hg2 '/' (hsub2 '/' hsl)).1 rfl
        · exact (hclX y (hrest2 y h3) '/' hsl).1 rfl

theorem mem_pyNormpathL {l : List Char} {c : Char} (h : c ∈ pyNormpathL l) :
    c ∈ l ∨ c = '.' ∨ c = '/' := by
  by_cases h0 : l = []
  · subst h0
    simp only [pyNormpathL, if_pos rfl] at h
    rcases List.mem_cons.mp h with h1 | h1
    · exact Or.inr (Or.inl h1)
    · simp at h1
  · simp only [pyNormpathL, if_neg h0] at h
    split at h
    · rcases List.mem_cons.mp h with h1 | h1
      · exact Or.inr (Or.inl h1)
      · simp at h1
    · rcases List.mem_append.mp h with h1 | h1
      · exact Or.inr (Or.inr (List.eq_of_mem_replicate h1))
      · rcases mem_joinSlash h1 with h2 | ⟨g, hg, hcg⟩
        · exact Or.inr (Or.inr h2)
        · rw [List.mem_reverse] at hg
          rcases mem_foldl_normStep hg with h3 | h3 | h3
          · simp at h3
          · exact Or.inl (mem_of_mem_splitSlash h3 hcg)
          · subst h3
            rcases List.mem_cons.mp hcg with h4 | h4
            · exact Or.inr (Or.inl h4)
            · rcases List.mem_cons.mp h4 with h5 | h5
              · exact Or.inr (Or.inl h5)
              · simp at h5

/-! ### Structure of a normalized name -/

theorem strip_of_mem_join_dots {j : Nat} {c : Char}
    (hc : c ∈ joinSlash (List.replicate j ['.', '.'])) :
    isStripChar c = true := by
  rcases mem_joinSlash hc with h1 | ⟨g, hg, hcg⟩
  · rw [h1]; decide
  · rw [List.eq_of_mem_replicate hg] at hcg
    rcases List.mem_cons.mp hcg with h2 | h2
    · rw [h2]; decide
    · rcases List.mem_cons.mp h2 with h3 | h3
      · rw [h3]; decide
      · simp at h3

theorem stripL_slashes_join (k j : Nat) {rf : List (List Char)}
    (hclean : ∀ g ∈ rf, ∀ c ∈ g, c ≠ '/' ∧ c ≠ ' ')
    (hgood : ∀ g ∈ rf, goodComp g) :
    stripL (List.replicate k '/' ++
        joinSlash (List.replicate j ['.', '.'] ++ rf)) = [] ∨
      ∃ gsF, gsF ≠ [] ∧
        stripL (List.replicate k '/' ++
          joinSlash (List.replicate j ['.', '.'] ++ rf)) = joinSlash gsF ∧
        (∀ g ∈ gsF, goodComp g) ∧ (∀ g ∈ gsF, '/' ∉ g) := by
  have hdp1 : (List.replicate k '/' ++
      joinSlash (List.replicate j ['.', '.'] ++ rf)).dropWhile isStripChar =
      (joinSlash (List.replicate j ['.', '.'] ++ rf)).dropWhile isStripChar :=
    dropWhile_append_of_forall
      (fun c hc => by rw [List.eq_of_mem_replicate hc]; decide) _
  by_cases hrf : rf = []
  · subst hrf
    left
    have hall : ∀ c ∈ joinSlash (List.replicate j ['.', '.'] ++ []),
        isStripChar c = true := by
      intro c hc
      rw [List.append_nil] at hc
      exact strip_of_mem_join_dots hc
    unfold stripL
    rw [hdp1, List.dropWhile_eq_nil_iff.mpr hall]
    rfl
  · have hjoin : (joinSlash (List.replicate j ['.', '.'] ++ rf)).dropWhile
        isStripChar = (joinSlash rf).dropWhile isStripChar := by
      cases j with
      | zero => rw [List.replicate_zero, List.nil_append]
      | succ j' =>
        rw [joinSlash_append (by simp) hrf,
          dropWhile_append_of_forall (fun c hc => strip_of_mem_join_dots hc),
          List.dropWhile_cons, if_pos (by decide : isStripChar '/' = true)]
    have hstrip : stripL (List.replicate k '/' ++
        joinSlash (List.replicate j ['.', '.'] ++ rf)) = stripL (joinSlash rf) := by
      unfold stripL
      rw [hdp1, hjoin]
    rw [hstrip]
    exact stripL_joinSlash_struct hclean hgood

theorem stripL_pyNormpathL_struct {m : List Char} (hsp : ' ' ∉ m) :
    stripL (pyNormpathL m) = [] ∨
      ∃ gsF, gsF ≠ [] ∧ stripL (pyNormpathL m) = joinSlash gsF ∧
        (∀ g ∈ gsF, goodComp g) ∧ (∀ g ∈ gsF, '/' ∉ g) := by
  by_cases hm : m = []
  · subst hm
    exact Or.inl (by decide)
  · obtain ⟨front, j, hF, hfront⟩ :=
      foldl_normStep_accInv (decide (initSlashes m ≠ 0)) (splitSlash m)
        (⟨[], 0, rfl, by simp⟩ : AccInv [])
    have hFr : ((splitSlash m).foldl
        (normStep (decide (initSlashes m ≠ 0))) []).reverse =
        List.replicate j ['.', '.'] ++ front.reverse := by
      rw [hF, List.reverse_append, List.reverse_replicate]
    have hcleanrf : ∀ g ∈ front.reverse, ∀ c ∈ g, c ≠ '/' ∧ c ≠ ' ' := by
      intro g hg c hc
      have hgF : g ∈ (splitSlash m).foldl
          (normStep (decide (initSlashes m ≠ 0))) [] := by
        rw [hF]
        exact List.mem_append_left _ (List.mem_reverse.mp hg)
      rcases mem_foldl_normStep hgF with h1 | h1 | h1
      · simp at h1
      · refine ⟨fun hh => ?_, fun hh => ?_⟩
        · exact no_slash_of_mem_splitSlash h1 (hh ▸ hc)
        · exact hsp (mem_of_mem_splitSlash h1 (hh ▸ hc))
      · exact absurd h1 (hfront g (List.mem_reverse.mp hg)).2.2
    have hgoodrf : ∀ g ∈ front.reverse, goodComp g :=
      fun g hg => hfront g (List.mem_reverse.mp hg)
    have hpn : pyNormpathL m =
        if List.replicate (initSlashes m) '/' ++
            joinSlash (List.replicate j ['.', '.'] ++ front.reverse) = []
        then ['.']
        else List.replicate (initSlashes m) '/' ++
          joinSlash (List.replicate j ['.', '.'] ++ front.reverse) := by
      simp only [pyNormpathL, if_neg hm]
      rw [hFr]
    rw [hpn]
    split
    · exact Or.inl (by decide)
    · exact stripL_slashes_join (initSlashes m) j hcleanrf hgoodrf

/-! ### Fixpoints and idempotence of `_get_valid_filename` -/

theorem map_eq_self_of_mem {f : Char → Char} {l : List Char}
    (h : ∀ c ∈ l, f c = c) : l.map f = l := by
  induction l with
  | nil => rfl
  | cons c cs ih =>
    rw [List.map_cons, h c (List.mem_cons_self c cs),
      ih (fun x hx => h x (List.mem_cons_of_mem c hx))]

theorem ne_backslash_of_isAllowed {c : Char} (h : isAllowed c = true) :
    c ≠ '\\' := by
  intro hh; rw [hh] at h; exact absurd h (by decide)

theorem ne_space_of_isAllowed {c : Char} (h : isAllowed c = true) :
    c ≠ ' ' := by
  intro hh; rw [hh] at h; exact absurd h (by decide)

theorem joinSlash_ne_nil {gs : List (List Char)} (h0 : gs ≠ [])
    (h : ∀ g ∈ gs, g ≠ []) : joinSlash gs ≠ [] := by
  cases gs with
  | nil => exact absurd rfl h0
  | cons g gs' =>
    cases gs' with
    | nil => rw [joinSlash_single]; exact h g (List.mem_cons_self g [])
    | cons g2 gs2 =>
      rw [joinSlash_cons_cons]
      intro hh
      exact h g (List.mem_cons_self g _) (List.append_eq_nil.mp hh).1

theorem getValidFilenameL_eq_stripL {l : List Char}
    (hchars : ∀ c ∈ l, isAllowed c = true)
    (hcomps : ∀ g ∈ splitSlash l, goodComp g) :
    getValidFilenameL l = stripL l := by
  have hne : l ≠ [] := by
    intro hh
    subst hh
    exact (hcomps [] (by simp [splitSlash])).1 rfl
  have hm1 : l.map replBackslash = l :=
    map_eq_self_of_mem (fun c hc => by
      unfold replBackslash
      rw [if_neg (ne_backslash_of_isAllowed (hchars c hc))])
  have hm2 : l.map replSpace = l :=
    map_eq_self_of_mem (fun c hc => by
      unfold replSpace
      rw [if_neg (ne_space_of_isAllowed (hchars c hc))])
  unfold getValidFilenameL
  rw [hm1, hm2, List.filter_eq_self.mpr hchars, pyNormpathL_fix hne hcomps]

theorem getValidFilenameL_chars {l : List Char} {c : Char}
    (h : c ∈ getValidFilenameL l) : isAllowed c = true := by
  unfold getValidFilenameL at h
  have h1 := mem_stripL h
  rcases mem_pyNormpathL h1 with h2 | h2 | h2
  · exact List.of_mem_filter h2
  · rw [h2]; decide
  · rw [h2]; decide

theorem getValidFilenameL_struct (l : List Char) :
    getValidFilenameL l = [] ∨
      ∃ gsF, gsF ≠ [] ∧ getValidFilenameL l = joinSlash gsF ∧
        (∀ g ∈ gsF, goodComp g) ∧ (∀ g ∈ gsF, '/' ∉ g) := by
  have hsp : ' ' ∉ ((l.map replBackslash).map replSpace).filter isAllowed := by
    intro h
    exact absurd (List.of_mem_filter h) (by decide)
  exact stripL_pyNormpathL_struct hsp

theorem getValidFilenameL_idem (l : List Char) :
    getValidFilenameL (getValidFilenameL l) = getValidFilenameL l := by
  rcases getValidFilenameL_struct l with h0 | ⟨gsF, hne, heq, hgood, hnosl⟩
  · rw [h0]; decide
  · have hchars : ∀ c ∈ joinSlash gsF, isAllowed c = true := by
      intro c hc
      exact getValidFilenameL_chars (heq ▸ hc)
    have hcomps : ∀ g ∈ splitSlash (joinSlash gsF), goodComp g := by
      rw [splitSlash_joinSlash hne hnosl]
      exact hgood
    rw [heq, getValidFilenameL_eq_stripL hchars hcomps, ← heq]
    have : stripL (getValidFilenameL l) = getValidFilenameL l := by
      unfold getValidFilenameL
      exact stripL_idem _
    rw [this]

theorem getValidFilenameL_fix {l : List Char}
    (hchars : ∀ c ∈ l, isAllowed c = true)
    (hcomps : ∀ g ∈ splitSlash l, goodComp g)
    (hhead : ∀ c, l.head? = some c → isStripChar c = false)
    (hlast : ∀ c, l.getLast? = some c → isStripChar c = false) :
    getValidFilenameL l = l := by
  rw [getValidFilenameL_eq_stripL hchars hcomps]
  have h1 : l.dropWhile isStripChar = l :=
    dropWhile_eq_self_of_head (fun c cs hc => hhead c (by rw [hc]; rfl))
  have h2 : l.reverse.dropWhile isStripChar = l.reverse :=
    dropWhile_eq_self_of_head
      (fun c cs hc => hlast c (by rw [← List.head?_reverse, hc]; rfl))
  unfold stripL
  rw [h1, h2, List.reverse_reverse]

/-! ### Lifting to `get_valid_name` -/

theorem getValidName_ok_cases {s t : String} (h : getValidName s = .ok t) :
    t = getValidFilename s ∧
      ¬ (getValidFilename s).length > AZURE_NAME_MAX_LEN ∧
      ¬ (getValidFilename s).length = 0 := by
  simp only [getValidName] at h
  split at h
  · exact absurd h (by simp)
  · split at h
    · exact absurd h (by simp)
    · rename_i h1 h2
      refine ⟨?_, h1, h2⟩
      injection h with h3
      exact h3.symm

theorem getValidName_of_fix {t : String} (hfix : getValidFilename t = t)
    (hlen : ¬ t.length > AZURE_NAME_MAX_LEN) (hne : ¬ t.length = 0) :
    getValidName t = .ok t := by
  simp only [getValidName]
  rw [hfix, if_neg hlen, if_neg hne]

theorem getValidFilename_idem (s : String) :
    getValidFilename (getValidFilename s) = getValidFilename s :=
  congrArg String.mk (getValidFilenameL_idem s.data)

theorem not_whitespace_of_isAllowed {c : Char} (h : isAllowed c = true) :
    c.isWhitespace = false := by
  by_contra hw
  rw [Bool.not_eq_false] at hw
  simp only [Char.isWhitespace, Bool.or_eq_true, decide_eq_true_eq] at hw
  rcases hw with ((h1 | h1) | h1) | h1 <;>
    (rw [h1] at h; exact absurd h (by decide))

theorem getValidName_no_dotdot {s t : String} (h : getValidName s = .ok t) :
    ∀ g ∈ splitSlash t.data, g ≠ ['.', '.'] := by
  obtain ⟨ht, _, hne⟩ := getValidName_ok_cases h
  subst ht
  rcases getValidFilenameL_struct s.data with h0 | ⟨gsF, hne', heq, hgood, hnosl⟩
  · exfalso
    apply hne
    show (getValidFilenameL s.data).length = 0
    rw [h0]
    rfl
  · intro g hg
    have : (getValidFilename s).data = joinSlash gsF := heq
    rw [this, splitSlash_joinSlash hne' hnosl] at hg
    exact (hgood g hg).2.2

theorem getValidName_fix_of_parts {l : List Char}
    (hchars : ∀ c ∈ l, isAllowed c = true)
    (hnosl : '/' ∉ l)
    (hhd : ∀ c, l.head? = some c → isStripChar c = false)
    (hlast : ∀ c, l.getLast? = some c → isStripChar c = false)
    (hlen1 : l.length ≠ 0) (hlen2 : l.length ≤ 1024) :
    getValidName ⟨l⟩ = .ok ⟨l⟩ := by
  have hcomps : ∀ g ∈ splitSlash l, goodComp g := by
    rw [splitSlash_of_no_slash hnosl]
    intro g hg
    rcases List.mem_cons.mp hg with h1 | h1
    · subst h1
      refine ⟨fun hh => hlen1 (by rw [hh]; rfl), fun hh => ?_, fun hh => ?_⟩
      · exact absurd (hhd '.' (by rw [hh]; rfl)) (by decide)
      · exact absurd (hhd '.' (by rw [hh]; rfl)) (by decide)
    · simp at h1
  have hfix : getValidFilename ⟨l⟩ = ⟨l⟩ :=
    congrArg String.mk (getValidFilenameL_fix hchars hcomps hhd hlast)
  exact getValidName_of_fix hfix
    (by show ¬ l.length > 1024; omega) (by show ¬ l.length = 0; omega)

theorem takeWhile_eq_self_of {p : Char → Bool} {l : List Char}
    (h : ∀ c ∈ l, p c = true) : l.takeWhile p = l := by
  induction l with
  | nil => rfl
  | cons c cs ih =>
    rw [List.takeWhile_cons, if_pos (h c (List.mem_cons_self c cs)),
      ih (fun x hx => h x (List.mem_cons_of_mem c hx))]

theorem getValidFilenameL_replicate_a (n : Nat) (hn : 1 ≤ n) :
    getValidFilenameL (List.replicate n 'a') = List.replicate n 'a' := by
  have hnosl : '/' ∉ List.replicate n 'a' := by
    intro h
    exact absurd (List.eq_of_mem_replicate h) (by decide)
  have hhd : ∀ c, (List.replicate n 'a').head? = some c →
      isStripChar c = false := by
    intro c hc
    cases n with
    | zero => simp at hc
    | succ n' =>
      rw [List.replicate_succ] at hc
      simp only [List.head?_cons, Option.some.injEq] at hc
      rw [← hc]; decide
  apply getValidFilenameL_fix
  · intro c hc; rw [List.eq_of_mem_replicate hc]; decide
  · rw [splitSlash_of_no_slash hnosl]
    intro g hg
    rcases List.mem_cons.mp hg with h1 | h1
    · subst h1
      refine ⟨?_, fun hh => ?_, fun hh => ?_⟩
      · intro hh
        have := congrArg List.length hh
        simp at this
        omega
      · have : '.' ∈ List.replicate n 'a' := by rw [hh]; simp
        exact absurd (List.eq_of_mem_replicate this) (by decide)
      · have : '.' ∈ List.replicate n 'a' := by rw [hh]; simp
        exact absurd (List.eq_of_mem_replicate this) (by decide)
    · simp at h1
  · exact hhd
  · intro c hc
    rw [← List.head?_reverse, List.reverse_replicate] at hc
    exact hhd c hc

/-! ### The available-name resolver -/

theorem availLoop_ok_length {stem ext : List Char} {tokens : List String}
    {maxLength : Nat} {name : String} {calls : Nat} {ex : List Bool}
    {n : String} {k : Nat}
    (h : availLoop stem ext tokens maxLength name calls ex = .ok (n, k)) :
    n.length ≤ maxLength := by
  induction ex generalizing tokens name calls with
  | nil => simp [availLoop] at h
  | cons ans rest ih =>
    unfold availLoop at h
    split at h
    · rename_i hcond
      injection h with h1
      injection h1 with h2 h3
      exact h2 ▸ hcond.2
    · split at h
      · simp at h
      · split at h
        · simp at h
        · exact ih h

theorem getAvailableName_ok_length {ex : List Bool} {tokens : List String}
    {maxLength : Nat} {s n : String} {k : Nat}
    (h : getAvailableName ex tokens maxLength s = .ok (n, k)) :
    n.length ≤ maxLength := by
  unfold getAvailableName at h
  split at h
  · simp at h
  · exact availLoop_ok_length h

theorem getAvailableName_error {s e : String}
    (h : getValidName s = .error e) (ex : List Bool) (tokens : List String)
    (maxLength : Nat) : getAvailableName ex tokens maxLength s = .error e := by
  unfold getAvailableName
  rw [h]

theorem splitExtL_replicate_a (n : Nat) :
    splitExtL (List.replicate n 'a') = (List.replicate n 'a', []) := by
  simp only [splitExtL]
  rw [List.reverse_replicate,
    takeWhile_eq_self_of (fun c hc => by
      rw [List.eq_of_mem_replicate hc]; decide),
    List.drop_length]

theorem isAllowed_of_isWordChar {c : Char} (h : isWordChar c = true) :
    isAllowed c = true := by
  unfold isAllowed
  rw [h]
  simp

theorem availLoop_step_true {stem ext : List Char} {tok : String}
    {toks : List String} {maxLength : Nat} {name next : String} {calls : Nat}
    {rest : List Bool}
    (hok : getValidName ⟨makeCandidate stem ext tok.data maxLength⟩ =
      .ok next) :
    availLoop stem ext (tok :: toks) maxLength name calls (true :: rest) =
      availLoop stem ext toks maxLength next (calls + 1) rest := by
  conv_lhs => unfold availLoop
  rw [if_neg (by simp)]
  show (match getValidName ⟨makeCandidate stem ext tok.data maxLength⟩ with
    | Except.error e => Except.error e
    | Except.ok next => availLoop stem ext toks maxLength next (calls + 1) rest) =
    availLoop stem ext toks maxLength next (calls + 1) rest
  rw [hok]

theorem availLoop_step_false {stem ext : List Char} {tokens : List String}
    {maxLength : Nat} {name : String} {calls : Nat} {rest : List Bool}
    (hlen : name.length ≤ maxLength) :
    availLoop stem ext tokens maxLength name calls (false :: rest) =
      .ok (name, calls + 1) := by
  conv_lhs => unfold availLoop
  rw [if_pos ⟨rfl, hlen⟩]

theorem getAvailableName_start {ex : List Bool} {tokens : List String}
    {maxLength : Nat} {s n : String} {stem ext : List Char}
    (h : getValidName s = .ok n) (hsp : splitExtL n.data = (stem, ext)) :
    getAvailableName ex tokens maxLength s =
      availLoop stem ext tokens maxLength n 0 ex := by
  unfold getAvailableName
  rw [h]
  show availLoop (splitExtL n.data).1 (splitExtL n.data).2
    tokens maxLength n 0 ex = _
  rw [hsp]

theorem getValidName_foo_tok {tok : String}
    (hw : ∀ c ∈ tok.data, isWordChar c = true)
    (hlen : tok.data.length ≤ 1000) :
    getValidName ⟨"foo".data ++ '_' :: (tok.data ++ ".txt".data)⟩ =
      .ok ⟨"foo".data ++ '_' :: (tok.data ++ ".txt".data)⟩ := by
  have hA : (("foo".data : List Char)).length = 3 := by decide
  have hB : (((".txt".data : List Char))).length = 4 := by decide
  apply getValidName_fix_of_parts
  · intro c hc
    rcases List.mem_append.mp hc with h1 | h1
    · exact (by decide : ∀ c ∈ ("foo".data : List Char),
        isAllowed c = true) c h1
    · rcases List.mem_cons.mp h1 with h2 | h2
      · rw [h2]; decide
      · rcases List.mem_append.mp h2 with h3 | h3
        · exact isAllowed_of_isWordChar (hw c h3)
        · exact (by decide : ∀ c ∈ (".txt".data : List Char),
            isAllowed c = true) c h3
  · intro hc
    rcases List.mem_append.mp hc with h1 | h1
    · exact absurd h1 (by decide)
    · rcases List.mem_cons.mp h1 with h2 | h2
      · exact absurd h2 (by decide)
      · rcases List.mem_append.mp h2 with h3 | h3
        · exact absurd (hw '/' h3) (by decide)
        · exact absurd h3 (by decide)
  · intro c hc
    have h0 : (("foo".data : List Char) ++
        '_' :: (tok.data ++ ".txt".data)).head? = some 'f' := rfl
    rw [h0] at hc
    injection hc with h1
    rw [← h1]; decide
  · intro c hc
    have hTB : ((tok.data ++ ".txt".data) : List Char).getLast? = some 't' := by
      rw [List.getLast?_append,
        (by decide : ((".txt".data : List Char)).getLast? = some 't')]
      rfl
    have hcons : (('_' :: (tok.data ++ ".txt".data)) :
        List Char).getLast? = some 't' := by
      show ((['_'] ++ (tok.data ++ ".txt".data)) : List Char).getLast? =
        some 't'
      rw [List.getLast?_append, hTB]
      rfl
    rw [List.getLast?_append, hcons] at hc
    have hc' : some 't' = some c := hc
    injection hc' with h1
    rw [← h1]; decide
  · simp [List.length_append]
  · simp only [List.length_append, List.length_cons, hA, hB]
    omega

theorem length_foo_cand {tok : String} :
    (("foo".data : List Char) ++
      '_' :: (tok.data ++ ".txt".data)).length = tok.data.length + 8 := by
  have hA : (("foo".data : List Char)).length = 3 := by decide
  have hB : (((".txt".data : List Char))).length = 4 := by decide
  simp only [List.length_append, List.length_cons, hA, hB]
  omega

/-! ### Claim theorems -/

/-- C1: normalization is idempotent — whenever `get_valid_name` succeeds on
a raw string `s` with result `t`, applying it to `t` returns `t` again. -/
theorem c1_get_valid_name_idempotent (s t : String)
    (h : getValidName s = .ok t) : getValidName t = .ok t := by
  obtain ⟨ht, h1, h2⟩ := getValidName_ok_cases h
  subst ht
  exact getValidName_of_fix (getValidFilename_idem s) h1 h2

/-- Witness for C1 at the concrete input `path/to/../somewhere`. -/
theorem c1_witness : getValidName "path/somewhere" = .ok "path/somewhere" :=
  c1_get_valid_name_idempotent "path/to/../somewhere" "path/somewhere"
    (by decide)

/-- C2: a successful normalization never escapes the conceptual root — the
result has no `..` segment, is non-empty, and has a non-whitespace
character; a raw name whose normalized form is empty is rejected with an
error instead of being coerced. -/
theorem c2_no_escape :
    (∀ s t : String, getValidName s = .ok t →
      (∀ g ∈ splitSlash t.data, g ≠ ['.', '.']) ∧ t ≠ "" ∧
        ∃ c ∈ t.data, c.isWhitespace = false) ∧
    (∀ s : String, getValidFilename s = "" →
      ∃ e, getValidName s = .error e) := by
  constructor
  · intro s t h
    refine ⟨getValidName_no_dotdot h, ?_, ?_⟩
    · obtain ⟨ht, _, h2⟩ := getValidName_ok_cases h
      subst ht
      intro hh
      apply h2
      rw [hh]
      rfl
    · obtain ⟨ht, _, h2⟩ := getValidName_ok_cases h
      subst ht
      cases hd : (getValidFilename s).data with
      | nil =>
        exfalso
        apply h2
        show (getValidFilename s).data.length = 0
        rw [hd]
        rfl
      | cons c cs =>
        refine ⟨c, List.mem_cons_self c cs, ?_⟩
        apply not_whitespace_of_isAllowed
        have hmem : c ∈ (getValidFilename s).data := by
          rw [hd]; exact List.mem_cons_self c cs
        exact getValidFilenameL_chars (l := s.data) hmem
  · intro s h
    refine ⟨"A file name of one or moreprintable characters is required", ?_⟩
    simp only [getValidName]
    rw [h]
    rfl

/-- Witness for C2 at concrete inputs. -/
theorem c2_witness :
    ((∀ g ∈ splitSlash ("path/somewhere" : String).data, g ≠ ['.', '.']) ∧
      ("path/somewhere" : String) ≠ "" ∧
      ∃ c ∈ ("path/somewhere" : String).data, c.isWhitespace = false) ∧
    ∃ e, getValidName "/../" = .error e :=
  ⟨c2_no_escape.1 "path/to/../somewhere" "path/somewhere" (by decide),
   c2_no_escape.2 "/../" (by decide)⟩

/-- C3: the exact normalization pairs of the spec, and canonicalization of
backslash separators. -/
theorem c3_exact_pairs :
    getValidName "path/to/../somewhere" = .ok "path/somewhere" ∧
    getValidName "path/to/../" = .ok "path" ∧
    getValidName "some///path" = .ok "some/path" ∧
    getValidName "/$/path" = .ok "path" ∧
    getValidName "path\\to\\somewhere" = getValidName "path/to/somewhere" :=
  ⟨by decide, by decide, by decide, by decide, by decide⟩

/-- C4: `get_valid_name` either raises or returns a name of length at most
1024; 1025 copies of `a` raise while 1024 copies are returned unchanged. -/
theorem c4_length_bound :
    (∀ s : String, (∃ e, getValidName s = .error e) ∨
      ∃ t, getValidName s = .ok t ∧ t.length ≤ 1024) ∧
    getValidName ⟨List.replicate 1025 'a'⟩ =
      .error "Blob name max len is 1024" ∧
    getValidName ⟨List.replicate 1024 'a'⟩ =
      .ok ⟨List.replicate 1024 'a'⟩ := by
  refine ⟨?_, ?_, ?_⟩
  · intro s
    simp only [getValidName]
    split
    · exact Or.inl ⟨_, rfl⟩
    · split
      · exact Or.inl ⟨_, rfl⟩
      · rename_i h1 _
        refine Or.inr ⟨_, rfl, ?_⟩
        simp only [AZURE_NAME_MAX_LEN] at h1
        omega
  · have hfix : getValidFilename ⟨List.replicate 1025 'a'⟩ =
        ⟨List.replicate 1025 'a'⟩ :=
      congrArg String.mk (getValidFilenameL_replicate_a 1025 (by omega))
    simp only [getValidName]
    rw [hfix,
      if_pos (show (⟨List.replicate 1025 'a'⟩ : String).length >
        AZURE_NAME_MAX_LEN by
          show (List.replicate 1025 'a').length > 1024
          rw [List.length_replicate]
          omega)]
  · have hfix : getValidFilename ⟨List.replicate 1024 'a'⟩ =
        ⟨List.replicate 1024 'a'⟩ :=
      congrArg String.mk (getValidFilenameL_replicate_a 1024 (by omega))
    simp only [getValidName]
    rw [hfix,
      if_neg (show ¬ (⟨List.replicate 1024 'a'⟩ : String).length >
        AZURE_NAME_MAX_LEN by
          show ¬ (List.replicate 1024 'a').length > 1024
          rw [List.length_replicate]
          omega),
      if_neg (show ¬ (⟨List.replicate 1024 'a'⟩ : String).length = 0 by
        show ¬ (List.replicate 1024 'a').length = 0
        rw [List.length_replicate]
        omega)]

/-- C5: the six rejection inputs all raise, and `get_available_name`
propagates the normalization error unchanged for every oracle and token
sequence, hence without consulting the existence oracle. -/
theorem c5_rejection_and_propagation :
    (∃ e, getValidName "" = .error e) ∧
    (∃ e, getValidName "/" = .error e) ∧
    (∃ e, getValidName "/../" = .error e) ∧
    (∃ e, getValidName ".." = .error e) ∧
    (∃ e, getValidName "///" = .error e) ∧
    (∃ e, getValidName "!!!" = .error e) ∧
    (∀ (s e : String) (ex : List Bool) (tokens : List String)
      (maxLength : Nat), getValidName s = .error e →
      getAvailableName ex tokens maxLength s = .error e) := by
  refine
    ⟨⟨"A file name of one or moreprintable characters is required", by decide⟩,
    ⟨"A file name of one or moreprintable characters is required", by decide⟩,
    ⟨"A file name of one or moreprintable characters is required", by decide⟩,
    ⟨"A file name of one or moreprintable characters is required", by decide⟩,
    ⟨"A file name of one or moreprintable characters is required", by decide⟩,
    ⟨"A file name of one or moreprintable characters is required", by decide⟩,
    ?_⟩
  intro s e ex tokens maxLength h
  exact getAvailableName_error h ex tokens maxLength

/-- Witness for C5: the error is propagated at a concrete input. -/
theorem c5_witness :
    getAvailableName [true, false] [] 1024 "!!!" =
      .error "A file name of one or moreprintable characters is required" :=
  c5_rejection_and_propagation.2.2.2.2.2.2 "!!!"
    "A file name of one or moreprintable characters is required"
    [true, false] [] 1024 (by decide)

/-- C6: with oracle answers true-then-false on `foo.txt` the resolver
returns `foo_<token>.txt` (prefix `foo_`, suffix `.txt`, strictly longer
than `foo.txt`) in exactly two oracle calls; with the oracle answering
false, resolving `foo bar baz.txt` returns `foo_bar_baz.txt` in exactly
one oracle call. -/
theorem c6_collision_and_first_try :
    (∀ tok : String, (∀ c ∈ tok.data, isWordChar c = true) →
      tok.data.length ≤ 1000 →
      ∃ n, getAvailableName [true, false] [tok] 1024 "foo.txt" =
          .ok (n, 2) ∧
        (∃ a, n = "foo_" ++ a) ∧ (∃ b, n = b ++ ".txt") ∧
        ("foo.txt" : String).length < n.length) ∧
    getAvailableName [false] [] 1024 "foo bar baz.txt" =
      .ok ("foo_bar_baz.txt", 1) := by
  constructor
  · intro tok hw hlen
    have hmk : makeCandidate "foo".data ".txt".data tok.data 1024 =
        "foo".data ++ '_' :: (tok.data ++ ".txt".data) := by
      simp only [makeCandidate]
      rw [if_pos (by
        have h : tok.length ≤ 1000 := hlen
        simp [List.length_append]
        omega)]
      simp
    have hok : getValidName
        ⟨makeCandidate "foo".data ".txt".data tok.data 1024⟩ =
        .ok ⟨"foo".data ++ '_' :: (tok.data ++ ".txt".data)⟩ := by
      rw [hmk]
      exact getValidName_foo_tok hw hlen
    refine ⟨⟨"foo".data ++ '_' :: (tok.data ++ ".txt".data)⟩, ?_, ?_, ?_, ?_⟩
    · rw [getAvailableName_start (by decide : getValidName "foo.txt" =
          .ok "foo.txt")
        (by decide : splitExtL ("foo.txt" : String).data =
          ("foo".data, ".txt".data)),
        availLoop_step_true hok,
        availLoop_step_false (by
          show (("foo".data : List Char) ++
            '_' :: (tok.data ++ ".txt".data)).length ≤ 1024
          rw [length_foo_cand]
          omega)]
    · refine ⟨tok ++ ".txt", ?_⟩
      apply String.ext
      rw [String.data_append, String.data_append,
        (by decide : ("foo_" : String).data = "foo".data ++ ['_'])]
      simp
    · refine ⟨"foo_" ++ tok, ?_⟩
      apply String.ext
      rw [String.data_append, String.data_append,
        (by decide : ("foo_" : String).data = "foo".data ++ ['_']),
        (by decide : (".txt" : String).data = '.' :: "txt".data)]
      simp
    · show ("foo.txt" : String).length <
        (("foo".data : List Char) ++ '_' :: (tok.data ++ ".txt".data)).length
      rw [length_foo_cand,
        (by decide : ("foo.txt" : String).length = 7)]
      omega
  · decide

/-- Witness for C6 with the concrete token `tok4567`. -/
theorem c6_witness :
    ∃ n, getAvailableName [true, false] ["tok4567"] 1024 "foo.txt" =
        .ok (n, 2) ∧
      (∃ a, n = "foo_" ++ a) ∧ (∃ b, n = b ++ ".txt") ∧
      ("foo.txt" : String).length < n.length :=
  c6_collision_and_first_try.1 "tok4567" (by decide) (by decide)

theorem getValidName_trunc_cand :
    getValidName ⟨List.replicate 92 'a' ++ '_' :: "tok4567".data⟩ =
      .ok ⟨List.replicate 92 'a' ++ '_' :: "tok4567".data⟩ := by
  apply getValidName_fix_of_parts
  · intro c hc
    rcases List.mem_append.mp hc with h1 | h1
    · rw [List.eq_of_mem_replicate h1]; decide
    · rcases List.mem_cons.mp h1 with h2 | h2
      · rw [h2]; decide
      · exact (by decide : ∀ c ∈ ("tok4567".data : List Char),
          isAllowed c = true) c h2
  · intro hc
    rcases List.mem_append.mp hc with h1 | h1
    · exact absurd (List.eq_of_mem_replicate h1) (by decide)
    · rcases List.mem_cons.mp h1 with h2 | h2
      · exact absurd h2 (by decide)
      · exact absurd h2 (by decide)
  · intro c hc
    have h0 : (List.replicate 92 'a' ++ '_' :: "tok4567".data).head? =
        some 'a' := rfl
    rw [h0] at hc
    injection hc with h1
    rw [← h1]; decide
  · intro c hc
    rw [List.getLast?_append,
      (by decide : (('_' :: ("tok4567".data : List Char))).getLast? =
        some '7')] at hc
    have hc' : some '7' = some c := hc
    injection hc' with h1
    rw [← h1]; decide
  · simp [List.length_append]
  · simp [List.length_append]

theorem trunc_cand_length :
    (List.replicate 92 'a' ++ '_' :: "tok4567".data).length = 100 := by
  simp [List.length_append]

/-- C7: a name returned by the resolver never exceeds the `max_length`
argument, and resolving a 1000-character name of `a` characters with
`max_length = 100` under a true-then-false oracle yields a result of
length exactly 100 containing the token separator, in two oracle calls. -/
theorem c7_max_length :
    (∀ (ex : List Bool) (tokens : List String) (maxLength : Nat)
      (s n : String) (k : Nat),
      getAvailableName ex tokens maxLength s = .ok (n, k) →
      n.length ≤ maxLength) ∧
    ∃ n, getAvailableName [true, false] ["tok4567"] 100
        ⟨List.replicate 1000 'a'⟩ = .ok (n, 2) ∧
      n.length = 100 ∧ '_' ∈ n.data := by
  constructor
  · intro ex tokens maxLength s n k h
    exact getAvailableName_ok_length h
  · have h1000 : getValidName ⟨List.replicate 1000 'a'⟩ =
        .ok ⟨List.replicate 1000 'a'⟩ := by
      apply getValidName_of_fix
        (congrArg String.mk (getValidFilenameL_replicate_a 1000 (by omega)))
      · show ¬ (List.replicate 1000 'a').length > 1024
        rw [List.length_replicate]
        omega
      · show ¬ (List.replicate 1000 'a').length = 0
        rw [List.length_replicate]
        omega
    have hmk : makeCandidate (List.replicate 1000 'a') [] "tok4567".data 100 =
        List.replicate 92 'a' ++ '_' :: "tok4567".data := by
      simp only [makeCandidate]
      rw [if_neg (by simp [List.length_append])]
      rw [show (100 - (1 + ("tok4567" : String).data.length +
        ([] : List Char).length)) = 92 from by decide]
      rw [List.take_replicate]
      simp
    have hok : getValidName
        ⟨makeCandidate (List.replicate 1000 'a') [] "tok4567".data 100⟩ =
        .ok ⟨List.replicate 92 'a' ++ '_' :: "tok4567".data⟩ := by
      rw [hmk]
      exact getValidName_trunc_cand
    refine ⟨⟨List.replicate 92 'a' ++ '_' :: "tok4567".data⟩, ?_, ?_, ?_⟩
    · rw [getAvailableName_start h1000 (splitExtL_replicate_a 1000),
        availLoop_step_true hok,
        availLoop_step_false (by
          show (List.replicate 92 'a' ++ '_' :: "tok4567".data).length ≤ 100
          rw [trunc_cand_length])]
    · exact trunc_cand_length
    · exact List.mem_append_right _ (List.mem_cons_self '_' _)

/-- Witness for C7: the general length bound applied at a concrete run. -/
theorem c7_witness : ("foo_bar_baz.txt" : String).length ≤ 1024 :=
  c7_max_length.1 [false] [] 1024 "foo bar baz.txt" "foo_bar_baz.txt" 1
    (by decide)

/-- C8: with overwrite enabled, save writes under exactly the normalized
name and performs zero oracle calls; only with overwrite disabled does
save go through the collision-avoidance resolver. -/
theorem c8_save_overwrite :
    (∀ (name n : String) (ex : List Bool) (tokens : List String),
      getValidName name = .ok n →
      saveName true ex tokens name = .ok (n, 0)) ∧
    (∀ (name : String) (ex : List Bool) (tokens : List String),
      saveName false ex tokens name =
        getAvailableName ex tokens AZURE_NAME_MAX_LEN name) := by
  constructor
  · intro name n ex tokens h
    unfold saveName
    rw [if_pos rfl, h]
  · intro name ex tokens
    unfold saveName
    rw [if_neg (by simp)]

/-- Witness for C8 at a concrete input. -/
theorem c8_witness :
    saveName true [true, true, true] [] "foo bar.txt" = .ok ("foo_bar.txt", 0) :=
  c8_save_overwrite.1 "foo bar.txt" "foo_bar.txt" [true, true, true] []
    (by decide)

/-- C9: delete swallows exactly the missing-resource error, so deleting a
non-existent blob is a no-op that never raises; success passes through and
any other backend error propagates unchanged. -/
theorem c9_delete_missing_noop :
    ∀ (f : String → Except AzureError Unit) (name : String),
      (f name = .error .missingResource → deleteBlob f name = .ok ()) ∧
      (f name = .ok () → deleteBlob f name = .ok ()) ∧
      (∀ msg, f name = .error (.other msg) →
        deleteBlob f name = .error (.other msg)) := by
  intro f name
  refine ⟨fun h => ?_, fun h => ?_, fun msg h => ?_⟩ <;>
    (unfold deleteBlob; rw [h])

/-- Witness for C9 with a backend whose blob is missing. -/
theorem c9_witness :
    deleteBlob (fun _ => .error .missingResource) "container/blob" = .ok () :=
  (c9_delete_missing_noop (fun _ => .error .missingResource)
    "container/blob").1 rfl

theorem listdirStep_mem (p : String) (acc : List String × List String)
    (x : String) :
    (∀ d, d ∈ (listdirStep p acc x).1 ↔ d ∈ acc.1 ∨
      (containsSlash (remainderAfter p x) = true ∧
        firstSegment (remainderAfter p x) = d)) ∧
    (∀ f, f ∈ (listdirStep p acc x).2 ↔ f ∈ acc.2 ∨
      (containsSlash (remainderAfter p x) = false ∧
        remainderAfter p x = f)) ∧
    (acc.1.Nodup → (listdirStep p acc x).1.Nodup) := by
  simp only [listdirStep]
  by_cases hx : containsSlash (remainderAfter p x) = true
  · rw [if_pos hx]
    by_cases hm : firstSegment (remainderAfter p x) ∈ acc.1
    · rw [if_pos hm]
      refine ⟨?_, ?_, fun h => h⟩
      · intro d
        constructor
        · exact fun h => Or.inl h
        · rintro (h | ⟨_, h2⟩)
          · exact h
          · exact h2 ▸ hm
      · intro f
        simp [hx]
    · rw [if_neg hm]
      refine ⟨?_, ?_, ?_⟩
      · intro d
        rw [List.mem_append]
        constructor
        · rintro (h | h)
          · exact Or.inl h
          · rcases List.mem_cons.mp h with h1 | h1
            · exact Or.inr ⟨hx, h1.symm⟩
            · simp at h1
        · rintro (h | ⟨_, h2⟩)
          · exact Or.inl h
          · exact Or.inr (h2 ▸ List.mem_cons_self _ [])
      · intro f
        simp [hx]
      · intro h
        rw [List.nodup_append]
        exact ⟨h, List.nodup_singleton _, by simpa using hm⟩
  · rw [if_neg hx]
    have hx' : containsSlash (remainderAfter p x) = false :=
      Bool.not_eq_true _ ▸ hx
    refine ⟨?_, ?_, fun h => h⟩
    · intro d
      simp [hx']
    · intro f
      rw [List.mem_append]
      constructor
      · rintro (h | h)
        · exact Or.inl h
        · rcases List.mem_cons.mp h with h1 | h1
          · exact Or.inr ⟨hx', h1.symm⟩
          · simp at h1
      · rintro (h | ⟨_, h2⟩)
        · exact Or.inl h
        · exact Or.inr (h2 ▸ List.mem_cons_self _ [])

theorem listdir_foldl_spec (p : String) (l : List String) :
    ∀ acc : List String × List String,
    (∀ f, f ∈ (l.foldl (listdirStep p) acc).2 ↔ f ∈ acc.2 ∨
      ∃ name ∈ l, containsSlash (remainderAfter p name) = false ∧
        remainderAfter p name = f) ∧
    (∀ d, d ∈ (l.foldl (listdirStep p) acc).1 ↔ d ∈ acc.1 ∨
      ∃ name ∈ l, containsSlash (remainderAfter p name) = true ∧
        firstSegment (remainderAfter p name) = d) ∧
    (acc.1.Nodup → (l.foldl (listdirStep p) acc).1.Nodup) := by
  induction l with
  | nil => intro acc; simp
  | cons x xs ih =>
    intro acc
    rw [List.foldl_cons]
    obtain ⟨ih1, ih2, ih3⟩ := ih (listdirStep p acc x)
    obtain ⟨hs1, hs2, hs3⟩ := listdirStep_mem p acc x
    refine ⟨?_, ?_, ?_⟩
    · intro f
      rw [ih1, hs2 f, List.exists_mem_cons_iff]
      tauto
    · intro d
      rw [ih2, hs1 d, List.exists_mem_cons_iff]
      tauto
    · intro h
      exact ih3 (hs3 h)

/-- C10: `listdir` partitions every blob name of the backend listing for
the slash-suffixed path: a remainder without a slash lands in the file
list, otherwise its first segment lands in the deduplicated directory
list, and nothing else appears in either component. -/
theorem c10_listdir_partition :
    ∀ (blobs : String → List String) (path : String),
      (∀ f, f ∈ (listdir blobs path).2 ↔
        ∃ name ∈ blobs (prefixedPath path),
          containsSlash (remainderAfter (prefixedPath path) name) = false ∧
          remainderAfter (prefixedPath path) name = f) ∧
      (∀ d, d ∈ (listdir blobs path).1 ↔
        ∃ name ∈ blobs (prefixedPath path),
          containsSlash (remainderAfter (prefixedPath path) name) = true ∧
          firstSegment (remainderAfter (prefixedPath path) name) = d) ∧
      (listdir blobs path).1.Nodup ∧
      (∀ name ∈ blobs (prefixedPath path),
        (containsSlash (remainderAfter (prefixedPath path) name) = true ∧
          firstSegment (remainderAfter (prefixedPath path) name) ∈
            (listdir blobs path).1) ∨
        (containsSlash (remainderAfter (prefixedPath path) name) = false ∧
          remainderAfter (prefixedPath path) name ∈
            (listdir blobs path).2)) := by
  intro blobs path
  obtain ⟨h1, h2, h3⟩ :=
    listdir_foldl_spec (prefixedPath path) (blobs (prefixedPath path))
      ([], [])
  have hld : listdir blobs path =
      (blobs (prefixedPath path)).foldl (listdirStep (prefixedPath path))
        ([], []) := rfl
  refine ⟨?_, ?_, ?_, ?_⟩
  · intro f
    rw [hld, h1 f]
    simp
  · intro d
    rw [hld, h2 d]
    simp
  · rw [hld]
    exact h3 List.nodup_nil
  · intro name hname
    by_cases hc : containsSlash (remainderAfter (prefixedPath path) name) =
        true
    · refine Or.inl ⟨hc, ?_⟩
      rw [hld, h2]
      exact Or.inr ⟨name, hname, hc, rfl⟩
    · have hc' : containsSlash (remainderAfter (prefixedPath path) name) =
          false := Bool.not_eq_true _ ▸ hc
      refine Or.inr ⟨hc', ?_⟩
      rw [hld, h1]
      exact Or.inr ⟨name, hname, hc', rfl⟩

/-- Witness for C10 at a concrete listing. -/
theorem c10_witness :
    (containsSlash (remainderAfter (prefixedPath "p") "p/d/b.txt") = true ∧
      firstSegment (remainderAfter (prefixedPath "p") "p/d/b.txt") ∈
        (listdir (fun _ => ["p/a.txt", "p/d/b.txt"]) "p").1) ∨
    (containsSlash (remainderAfter (prefixedPath "p") "p/d/b.txt") = false ∧
      remainderAfter (prefixedPath "p") "p/d/b.txt" ∈
        (listdir (fun _ => ["p/a.txt", "p/d/b.txt"]) "p").2) :=
  (c10_listdir_partition (fun _ => ["p/a.txt", "p/d/b.txt"]) "p").2.2.2
    "p/d/b.txt" (by decide)

example : getValidFilename "path/to/../somewhere" = "path/somewhere" := by decide
example : getValidName "path/to/../" = .ok "path" := by decide
example : getValidName "some///path" = .ok "some/path" := by decide
example : getValidName "/$/path" = .ok "path" := by decide
example : getValidFilename "" = "" := by decide
example : getValidFilename "/" = "" := by decide
example : getValidFilename "/../" = "" := by decide
example : getValidFilename ".." = "" := by decide
example : getValidFilename "///" = "" := by decide
example : getValidFilename "!!!" = "" := by decide
example : getValidName "foo bar baz.txt" = .ok "foo_bar_baz.txt" := by decide
example : splitExtL "foo.txt".data = ("foo".data, ".txt".data) := by decide
example : getAvailableName [true, false] ["tok4567"] 1024 "foo.txt" =
    .ok ("foo_tok4567.txt", 2) := by decide
example : getAvailableName [false] [] 1024 "foo bar baz.txt" =
    .ok ("foo_bar_baz.txt", 1) := by decide
example : listdir (fun _ => ["p/a.txt", "p/d/b.txt", "p/d/c.txt"]) "p" =
    (["d"], ["a.txt"]) := by decide

end AzureStorage
